import Mathlib

/-
Verification of the fixed-arena allocator in
RTOSWorkspace/malloc_free_using_global_array/functions.c.

The arena is a statically sized byte buffer holding a contiguous chain of
blocks, each a metadata header followed by its payload.  In the source every
next pointer equals the address of its own header plus the header size plus
the payload size (split, fuse and tail extension all keep the chain
contiguous), so the chain is modelled as a list of blocks and a block's
address is the sum of header plus payload sizes of the blocks before it.
The global tail pointer named last always designates the final chain node
(every site that changes the final node reassigns last), so it is derived
from the list rather than stored.
-/

namespace RTOS

/-- Block header from functions.h (the header file is not under src; the
struct's use in functions.c shows a size field, a free flag and a next
pointer).  The next pointer is represented by list adjacency, see the file
comment. -/
structure Block where
  size : Nat
  free : Bool
deriving DecidableEq

def nullBlock : Block := ⟨0, false⟩

instance : Inhabited Block := ⟨nullBlock⟩

/-- Modelled from the spec: the configuration constants of functions.h,
which is absent from src.  BUFF_SIZE is the arena capacity and THRESHOLD the
minimum leftover payload worth splitting off; hdrSize stands for the size of
the metadata struct.  A C struct has positive size, and the spec explains the
threshold as the leftover size at which a fragment is worth one more header,
so the model carries 0 < hdrSize and hdrSize ≤ THRESHOLD. -/
structure Config where
  hdrSize : Nat
  THRESHOLD : Nat
  BUFF_SIZE : Nat
  hpos : 0 < hdrSize
  hwf : hdrSize ≤ THRESHOLD

/-- Allocator state: the chain of blocks (functions.c keeps it threaded
through the buffer from heap_base), the freespace counter (line 67) and the
first-call flag (line 69).  freespace is a size_t in C; it is modelled with
exact Int arithmetic: on runs that stay inside the arena no wrap occurs, and
runs that extend past the arena overwrite memory beyond the buffer, which no
chain-level model can represent. -/
structure Heap where
  blocks : List Block
  freespace : Int
  first : Bool
deriving DecidableEq

/-- State at program start: zeroed buffer, no chain yet, freespace = BUFF_SIZE. -/
def initHeap (cfg : Config) : Heap := ⟨[], (cfg.BUFF_SIZE : Int), true⟩

/-- Sum of the payload sizes of the allocated blocks. -/
def allocSum : List Block → Nat
  | [] => 0
  | b :: rest => (if b.free then 0 else b.size) + allocSum rest

/-- Sum of the payload sizes of the free blocks. -/
def freeSum : List Block → Nat
  | [] => 0
  | b :: rest => (if b.free then b.size else 0) + freeSum rest

/-- Total bytes consumed by the chain: one header plus one payload per block. -/
def extent (cfg : Config) : List Block → Nat
  | [] => 0
  | b :: rest => cfg.hdrSize + b.size + extent cfg rest

/-- Offset of the header of block number i from the arena base. -/
def blockAddr (cfg : Config) (bl : List Block) (i : Nat) : Nat :=
  extent cfg (bl.take i)

/-- Offset of the final header (the C global last), none when no chain exists. -/
def lastAddr (cfg : Config) : List Block → Option Nat
  | [] => none
  | [_] => some 0
  | b :: rest => (lastAddr cfg rest).map (fun a => cfg.hdrSize + b.size + a)

/-- Walk of verifyBlockAddress (functions.c lines 169..183): find the chain
node whose header offset equals the target, walking from offset addr. -/
def chainIndexOf (cfg : Config) : List Block → Nat → Nat → Option Nat
  | [], _, _ => none
  | b :: rest, addr, tgt =>
    if addr = tgt then some 0
    else (chainIndexOf cfg rest (addr + cfg.hdrSize + b.size) tgt).map (· + 1)

/-- Write the free flag of block number i. -/
def setFree : List Block → Nat → Bool → List Block
  | [], _, _ => []
  | b :: rest, 0, f => ⟨b.size, f⟩ :: rest
  | b :: rest, i+1, f => b :: setFree rest i f

/-- functions.c lines 247..255: index of the first chain block that is free
and at least the requested size. -/
def search_freespace (size : Nat) : List Block → Option Nat
  | [] => none
  | b :: rest =>
    if b.free && decide (size ≤ b.size) then some 0
    else (search_freespace size rest).map (· + 1)

/-- functions.c lines 272..291 (split): block number i keeps size bytes and
its free flag; a new free header follows with the leftover payload.  The
leftover is computed as in C with size_t subtraction; all uses are guarded by
size + THRESHOLD ≤ old size, and hdrSize ≤ THRESHOLD keeps it exact. -/
def splitList (cfg : Config) : List Block → Nat → Nat → List Block
  | [], _, _ => []
  | b :: rest, 0, size => ⟨size, b.free⟩ :: ⟨b.size - (size + cfg.hdrSize), true⟩ :: rest
  | b :: rest, i+1, size => b :: splitList cfg rest i size

/-- functions.c lines 256..271 (fuse): while the next block exists and is
free, absorb it (size grows by header plus payload, freespace gains the
reclaimed header).  Returns the grown block, the remaining suffix and the
updated freespace; the tail pointer update is derived. -/
def fuse (cfg : Config) : Block → List Block → Int → Block × List Block × Int
  | b, [], fs => (b, [], fs)
  | b, c :: rest, fs =>
    if c.free then
      fuse cfg ⟨b.size + c.size + cfg.hdrSize, b.free⟩ rest (fs + (cfg.hdrSize : Int))
    else (b, c :: rest, fs)

/-- fuse applied at chain position i. -/
def fuseAt (cfg : Config) : List Block → Nat → Int → List Block × Int
  | [], _, fs => ([], fs)
  | b :: rest, 0, fs =>
    let r := fuse cfg b rest fs
    (r.1 :: r.2.1, r.2.2)
  | b :: rest, i+1, fs =>
    let r := fuseAt cfg rest i fs
    (b :: r.1, r.2)

/-- Sweep of deframent_my_heap (functions.c lines 293..303): walk the chain;
whenever a block and its successor are both free, fuse absorbs the whole run
of free successors, then the walk continues behind the merged block.  The
nested while loop of fuse is flattened into repeated two-block merges, which
absorbs the same run; fuel is the list length, consumed at least one element
per step, so the fuel-exhausted equation is never reached from the wrapper. -/
def defragSweep (cfg : Config) : Nat → List Block → Int → List Block × Int
  | _, [], fs => ([], fs)
  | _, [b], fs => ([b], fs)
  | 0, bl, fs => (bl, fs)
  | fuel+1, b :: c :: rest, fs =>
    if b.free && c.free then
      defragSweep cfg fuel (⟨b.size + c.size + cfg.hdrSize, b.free⟩ :: rest)
        (fs + (cfg.hdrSize : Int))
    else
      let r := defragSweep cfg fuel (c :: rest) fs
      (b :: r.1, r.2)

/-- functions.c lines 293..303. -/
def deframent_my_heap (cfg : Config) (st : Heap) : Heap :=
  let r := defragSweep cfg st.blocks.length st.blocks st.freespace
  ⟨r.1, r.2, st.first⟩

/-- functions.c lines 74..123.  Returns the new state and the payload offset
handed to the caller (none for a zero request, as C returns NULL).  The very
first call lays the block at the arena base; later calls first-fit search,
split when the fit is large enough, or extend the tail when nothing fits. -/
def my_malloc (cfg : Config) (size : Nat) (st : Heap) : Heap × Option Nat :=
  if size = 0 then (st, none)
  else if st.first then
    (⟨[⟨size, false⟩], st.freespace - ((size + cfg.hdrSize : Nat) : Int), false⟩,
     some cfg.hdrSize)
  else
    match search_freespace size st.blocks with
    | none =>
      (⟨st.blocks ++ [⟨size, false⟩],
        st.freespace - ((size + cfg.hdrSize : Nat) : Int), st.first⟩,
       some (extent cfg st.blocks + cfg.hdrSize))
    | some i =>
      let b := st.blocks.getD i nullBlock
      if size + cfg.THRESHOLD ≤ b.size then
        (⟨setFree (splitList cfg st.blocks i size) i false,
          st.freespace - (b.size : Int) + ((b.size - (size + cfg.hdrSize) : Nat) : Int),
          st.first⟩,
         some (blockAddr cfg st.blocks i + cfg.hdrSize))
      else
        (⟨setFree st.blocks i false, st.freespace - (size : Int), st.first⟩,
         some (blockAddr cfg st.blocks i + cfg.hdrSize))

/-- Mutation of my_free on a validated chain index (functions.c lines
147..154): mark the block free, credit its payload to freespace, fuse
forward from it, and fuse forward from the chain predecessor when that one
is free (verifyBlockAddress leaves the predecessor in prev). -/
def freeMark (cfg : Config) (bl : List Block) (i : Nat) (fs : Int) : List Block × Int :=
  let sz := (bl.getD i nullBlock).size
  let bl1 := setFree bl i true
  let r1 := fuseAt cfg bl1 i (fs + (sz : Int))
  if (i != 0) && (r1.1.getD (i-1) nullBlock).free then
    fuseAt cfg r1.1 (i-1) r1.2
  else r1

/-- Body of my_free for a non-null pointer, before the defragmentation pass
(functions.c lines 141..164): recover the header one header-width before the
payload, require it to lie between heap_base and last and to be a chain node
(verifyBlockAddress); on success run freeMark; on failure mutate nothing.
The header offset q - hdrSize is only used under hdrSize ≤ q, matching the
pointer comparison to_free ≥ heap_base. -/
def myFreeBody (cfg : Config) (q : Nat) (st : Heap) : Heap :=
  match lastAddr cfg st.blocks with
  | none => st
  | some la =>
    if cfg.hdrSize ≤ q && decide (q - cfg.hdrSize ≤ la) then
      match chainIndexOf cfg st.blocks 0 (q - cfg.hdrSize) with
      | none => st
      | some i =>
        let r := freeMark cfg st.blocks i st.freespace
        ⟨r.1, r.2, st.first⟩
    else st

/-- functions.c lines 135..167: null returns at once; any non-null pointer,
valid or invalid, ends with the defragmentation pass. -/
def my_free (cfg : Config) (p : Option Nat) (st : Heap) : Heap :=
  match p with
  | none => st
  | some q => deframent_my_heap cfg (myFreeBody cfg q st)

/-- Outcomes of my_realloc paths whose behaviour escapes the chain model:
badPtr reads a header at an offset that is not a chain node, nullDeref is the
grow path dereferencing the absent successor of the tail block (line 203),
noReturn is the equal-size case where control falls off the end of the
non-void function, overrun is the shrink fallback copying the old payload
size into a strictly smaller new block (line 237). -/
inductive RErr where
  | badPtr
  | nullDeref
  | noReturn
  | overrun
deriving DecidableEq

instance {ε α : Type} [DecidableEq ε] [DecidableEq α] : DecidableEq (Except ε α) := fun x y =>
  match x, y with
  | .ok a, .ok b =>
    if h : a = b then isTrue (by rw [h]) else isFalse (by intro hc; cases hc; exact h rfl)
  | .error a, .error b =>
    if h : a = b then isTrue (by rw [h]) else isFalse (by intro hc; cases hc; exact h rfl)
  | .ok _, .error _ => isFalse (by intro hc; cases hc)
  | .error _, .ok _ => isFalse (by intro hc; cases hc)

def W64 : Nat := 2 ^ 64

/-- size_t subtraction with wrap-around, for the one place the source
subtracts below zero in unsigned arithmetic. -/
def wsub (a b : Nat) : Nat := (a + (W64 - b % W64)) % W64

/-- Absorption step of the in-place grow path (functions.c lines 205..211):
block i swallows its successor, keeping its own free flag. -/
def absorbNext (cfg : Config) : List Block → Nat → List Block
  | [], _ => []
  | [b], 0 => [b]
  | b :: c :: rest, 0 => ⟨b.size + cfg.hdrSize + c.size, b.free⟩ :: rest
  | b :: rest, i+1 => b :: absorbNext cfg rest i

/-- functions.c lines 186..244.  Null delegates to my_malloc, zero size to
my_free.  Growing: if the free successor covers size - oldsize - hdrSize
(computed in wrapping size_t arithmetic as in C), absorb it in place and
split any excess; otherwise allocate-copy-free (the copy of oldsize bytes
into the larger block is safe).  Shrinking splits in place above the
threshold.  The error outcomes mark the paths the source leaves undefined,
see RErr. -/
def my_realloc (cfg : Config) (p : Option Nat) (size : Nat) (st : Heap) :
    Except RErr (Heap × Option Nat) :=
  match p with
  | none => .ok (my_malloc cfg size st)
  | some q =>
    if size = 0 then .ok (my_free cfg (some q) st, none)
    else if q < cfg.hdrSize then .error .badPtr
    else
      match chainIndexOf cfg st.blocks 0 (q - cfg.hdrSize) with
      | none => .error .badPtr
      | some i =>
        let b := st.blocks.getD i nullBlock
        if b.size < size then
          if i + 1 < st.blocks.length then
            let c := st.blocks.getD (i+1) nullBlock
            if c.free && decide (wsub (size - b.size) cfg.hdrSize ≤ c.size) then
              let bl1 := absorbNext cfg st.blocks i
              let fs1 := st.freespace - (c.size : Int)
              let nsz := b.size + cfg.hdrSize + c.size
              if size + cfg.THRESHOLD ≤ nsz then
                .ok (⟨splitList cfg bl1 i size,
                      fs1 + ((nsz - (size + cfg.hdrSize) : Nat) : Int), st.first⟩,
                     some q)
              else .ok (⟨bl1, fs1, st.first⟩, some q)
            else
              let r := my_malloc cfg size st
              .ok (my_free cfg (some q) r.1, r.2)
          else .error .nullDeref
        else if size < b.size then
          if size + cfg.THRESHOLD ≤ b.size then
            .ok (⟨splitList cfg st.blocks i size,
                  st.freespace + ((b.size - (size + cfg.hdrSize) : Nat) : Int),
                  st.first⟩,
                 some q)
          else .error .overrun
        else .error .noReturn

/-- One public call. -/
inductive Op where
  | malloc (size : Nat)
  | free (p : Option Nat)
  | realloc (p : Option Nat) (size : Nat)
deriving DecidableEq

/-- Apply one call to the state; an erroring realloc (undefined behaviour in
the source) leaves the model state unchanged, and the good-trace predicates
below rule those calls out. -/
def runOp (cfg : Config) (st : Heap) : Op → Heap
  | .malloc s => (my_malloc cfg s st).1
  | .free p => my_free cfg p st
  | .realloc p s =>
    match my_realloc cfg p s st with
    | .ok r => r.1
    | .error _ => st

def runOps (cfg : Config) (st : Heap) : List Op → Heap
  | [] => st
  | op :: ops => runOps cfg (runOp cfg st op) ops

/-- A malloc call that keeps the accounting exact: zero request, first call
inside capacity, tail extension inside capacity, a split fit, or an exact
fit.  Excluded is only the oversized below-threshold fit, where the source
subtracts the request instead of the fit's size. -/
def mallocGood (cfg : Config) (st : Heap) (s : Nat) : Bool :=
  if s = 0 then true
  else if st.first then
    st.blocks.isEmpty && decide (s + cfg.hdrSize ≤ cfg.BUFF_SIZE)
  else
    match search_freespace s st.blocks with
    | none => decide (extent cfg st.blocks + (s + cfg.hdrSize) ≤ cfg.BUFF_SIZE)
    | some i =>
      let b := st.blocks.getD i nullBlock
      decide (s + cfg.THRESHOLD ≤ b.size) || decide (b.size = s)

/-- A free call that is not a double free: null, an invalid pointer (the
source mutates nothing then), or a pointer to a currently allocated block. -/
def freeGood (cfg : Config) (st : Heap) (p : Option Nat) : Bool :=
  match p with
  | none => true
  | some q =>
    if q < cfg.hdrSize then true
    else
      match chainIndexOf cfg st.blocks 0 (q - cfg.hdrSize) with
      | none => true
      | some i => !(st.blocks.getD i nullBlock).free

/-- A realloc call with defined behaviour and exact accounting: the pointer
names a currently allocated chain block, the size differs from the current
one, growing either absorbs an adequate free successor in place or falls back
to a good malloc plus a good free, and shrinking leaves at least THRESHOLD. -/
def reallocGood (cfg : Config) (st : Heap) (p : Option Nat) (s : Nat) : Bool :=
  match p with
  | none => mallocGood cfg st s
  | some q =>
    if s = 0 then freeGood cfg st (some q)
    else if q < cfg.hdrSize then false
    else
      match chainIndexOf cfg st.blocks 0 (q - cfg.hdrSize) with
      | none => false
      | some i =>
        let b := st.blocks.getD i nullBlock
        !b.free &&
          (if b.size < s then
            if i + 1 < st.blocks.length then
              let c := st.blocks.getD (i+1) nullBlock
              if c.free && decide (wsub (s - b.size) cfg.hdrSize ≤ c.size) then true
              else mallocGood cfg st s && freeGood cfg (my_malloc cfg s st).1 (some q)
            else false
          else if s < b.size then decide (s + cfg.THRESHOLD ≤ b.size)
          else false)

def goodOp (cfg : Config) (st : Heap) : Op → Bool
  | .malloc s => mallocGood cfg st s
  | .free p => freeGood cfg st p
  | .realloc p s => reallocGood cfg st p s

def goodTrace (cfg : Config) (st : Heap) : List Op → Bool
  | [] => true
  | op :: ops => goodOp cfg st op && goodTrace cfg (runOp cfg st op) ops

/-- Freespace plus allocated payload plus one header per block, for a chain
segment paired with a freespace value. -/
def segVal (cfg : Config) (fs : Int) (bl : List Block) : Int :=
  fs + (allocSum bl : Int) + ((bl.length * cfg.hdrSize : Nat) : Int)

/-- The conserved quantity of the spec: freespace plus allocated payload plus
one header per existing block. -/
def consVal (cfg : Config) (st : Heap) : Int :=
  segVal cfg st.freespace st.blocks

/-- A block that satisfies a request: free and large enough. -/
def fits (s : Nat) (b : Block) : Prop := b.free = true ∧ s ≤ b.size

instance (s : Nat) (b : Block) : Decidable (fits s b) := by
  unfold fits; infer_instance

/-- Free flag of the first block of a suffix, false for the empty suffix
(the next pointer is null there, so the fuse loop stops either way). -/
def headFree : List Block → Bool
  | [] => false
  | c :: _ => c.free

def conserved (cfg : Config) (st : Heap) : Prop :=
  consVal cfg st = (cfg.BUFF_SIZE : Int)

instance (cfg : Config) (st : Heap) : Decidable (conserved cfg st) := by
  unfold conserved; infer_instance

/-- No two chain-adjacent blocks are both free. -/
def noAdjFree : List Block → Bool
  | b :: c :: rest => !(b.free && c.free) && noAdjFree (c :: rest)
  | _ => true

/-- The validity test of my_free: header offset inside the occupied range and
reachable by the chain walk. -/
def validTarget (cfg : Config) (st : Heap) (q : Nat) : Bool :=
  match lastAddr cfg st.blocks with
  | none => false
  | some la =>
    (cfg.hdrSize ≤ q && decide (q - cfg.hdrSize ≤ la)) &&
      (chainIndexOf cfg st.blocks 0 (q - cfg.hdrSize)).isSome

/-- A concrete configuration for witnesses and counterexamples: 8-byte
header, threshold 8, capacity 100 (the spec's scenarios use threshold 8 and
capacity 100). -/
def cfgA : Config := ⟨8, 8, 100, by decide, by decide⟩

/-! Basic facts about sums, indexing and the list surgeries. -/

theorem allocSum_append (l1 l2 : List Block) :
    allocSum (l1 ++ l2) = allocSum l1 + allocSum l2 := by
  induction l1 with
  | nil => simp [allocSum]
  | cons b rest ih => simp [allocSum, ih]; omega

theorem freeSum_append (l1 l2 : List Block) :
    freeSum (l1 ++ l2) = freeSum l1 + freeSum l2 := by
  induction l1 with
  | nil => simp [freeSum]
  | cons b rest ih => simp [freeSum, ih]; omega

theorem extent_append (cfg : Config) (l1 l2 : List Block) :
    extent cfg (l1 ++ l2) = extent cfg l1 + extent cfg l2 := by
  induction l1 with
  | nil => simp [extent]
  | cons b rest ih => simp [extent, ih]; omega

theorem extent_eq (cfg : Config) (bl : List Block) :
    extent cfg bl = bl.length * cfg.hdrSize + allocSum bl + freeSum bl := by
  induction bl with
  | nil => simp [extent, allocSum, freeSum]
  | cons b rest ih =>
    by_cases hb : b.free <;>
      simp [extent, allocSum, freeSum, hb, ih, Nat.succ_mul] <;> omega

theorem segVal_append (cfg : Config) (fs : Int) (l1 l2 : List Block) :
    segVal cfg fs (l1 ++ l2)
      = segVal cfg fs l2 + (allocSum l1 : Int) + ((l1.length * cfg.hdrSize : Nat) : Int) := by
  unfold segVal
  rw [allocSum_append, List.length_append]
  push_cast
  ring

theorem getD_append_len (pre : List Block) (x : Block) (post : List Block) :
    (pre ++ x :: post).getD pre.length nullBlock = x := by
  induction pre with
  | nil => rfl
  | cons b rest ih => simpa using ih

theorem getD_append_lt (pre rest : List Block) (k : Nat) (h : k < pre.length) :
    (pre ++ rest).getD k nullBlock = pre.getD k nullBlock := by
  induction pre generalizing k with
  | nil => simp at h
  | cons b tl ih =>
    cases k with
    | zero => rfl
    | succ k => simpa using ih k (by simpa using h)

theorem setFree_append (pre : List Block) (x : Block) (post : List Block) (f : Bool) :
    setFree (pre ++ x :: post) pre.length f = pre ++ ⟨x.size, f⟩ :: post := by
  induction pre with
  | nil => rfl
  | cons b rest ih => simpa [setFree] using ih

theorem splitList_append (cfg : Config) (pre : List Block) (x : Block)
    (post : List Block) (s : Nat) :
    splitList cfg (pre ++ x :: post) pre.length s
      = pre ++ ⟨s, x.free⟩ :: ⟨x.size - (s + cfg.hdrSize), true⟩ :: post := by
  induction pre with
  | nil => rfl
  | cons b rest ih => simpa [splitList] using ih

theorem absorbNext_append (cfg : Config) (pre : List Block) (x c : Block)
    (post : List Block) :
    absorbNext cfg (pre ++ x :: c :: post) pre.length
      = pre ++ ⟨x.size + cfg.hdrSize + c.size, x.free⟩ :: post := by
  induction pre with
  | nil => rfl
  | cons b rest ih => simpa [absorbNext] using ih

theorem fuseAt_append (cfg : Config) (pre : List Block) (x : Block)
    (post : List Block) (fs : Int) :
    fuseAt cfg (pre ++ x :: post) pre.length fs
      = (pre ++ (fuse cfg x post fs).1 :: (fuse cfg x post fs).2.1,
         (fuse cfg x post fs).2.2) := by
  induction pre with
  | nil => rfl
  | cons b rest ih => simp [fuseAt, ih]

theorem index_decomp (bl : List Block) (i : Nat) (h : i < bl.length) :
    ∃ pre x post, bl = pre ++ x :: post ∧ pre.length = i ∧ x = bl.getD i nullBlock := by
  induction bl generalizing i with
  | nil => simp at h
  | cons b rest ih =>
    cases i with
    | zero => exact ⟨[], b, rest, rfl, rfl, rfl⟩
    | succ i =>
      obtain ⟨pre, x, post, h1, h2, h3⟩ := ih i (by simpa using h)
      exact ⟨b :: pre, x, post, by simp [h1], by simp [h2], by simpa using h3⟩

theorem concat_decomp (l : List Block) (h : l ≠ []) :
    ∃ l' a, l = l' ++ [a] := by
  induction l with
  | nil => exact absurd rfl h
  | cons b rest ih =>
    cases rest with
    | nil => exact ⟨[], b, rfl⟩
    | cons c tl =>
      obtain ⟨l', a, he⟩ := ih (by simp)
      exact ⟨b :: l', a, by simp [he]⟩

/-! Facts about fuse and the defragmentation sweep. -/

theorem fuse_free_flag (cfg : Config) :
    ∀ (rest : List Block) (b : Block) (fs : Int), (fuse cfg b rest fs).1.free = b.free := by
  intro rest
  induction rest with
  | nil => intro b fs; rfl
  | cons c tl ih =>
    intro b fs
    cases hc : c.free
    · simp [fuse, hc]
    · simpa [fuse, hc] using ih ⟨b.size + c.size + cfg.hdrSize, b.free⟩ (fs + (cfg.hdrSize : Int))

theorem fuse_stop (cfg : Config) (b : Block) (rest : List Block) (fs : Int)
    (h : headFree rest = false) : fuse cfg b rest fs = (b, rest, fs) := by
  cases rest with
  | nil => rfl
  | cons c tl => simp [headFree] at h; simp [fuse, h]

theorem fuse_step (cfg : Config) (b c : Block) (rest : List Block) (fs : Int)
    (h : c.free = true) :
    fuse cfg b (c :: rest) fs
      = fuse cfg ⟨b.size + c.size + cfg.hdrSize, b.free⟩ rest (fs + (cfg.hdrSize : Int)) := by
  simp [fuse, h]

theorem fuse_segVal (cfg : Config) :
    ∀ (rest : List Block) (b : Block) (fs : Int), b.free = true →
      segVal cfg (fuse cfg b rest fs).2.2 ((fuse cfg b rest fs).1 :: (fuse cfg b rest fs).2.1)
        = segVal cfg fs (b :: rest) := by
  intro rest
  induction rest with
  | nil => intro b fs hb; rfl
  | cons c tl ih =>
    intro b fs hb
    cases hc : c.free
    · simp [fuse, hc]
    · rw [fuse_step cfg b c tl fs hc,
        ih ⟨b.size + c.size + cfg.hdrSize, b.free⟩ (fs + (cfg.hdrSize : Int)) (by simpa using hb)]
      unfold segVal
      simp [allocSum, hb, hc, Nat.succ_mul]
      omega

theorem defragSweep_segVal (cfg : Config) :
    ∀ (fuel : Nat) (bl : List Block) (fs : Int), bl.length ≤ fuel →
      segVal cfg (defragSweep cfg fuel bl fs).2 (defragSweep cfg fuel bl fs).1
        = segVal cfg fs bl := by
  intro fuel
  induction fuel with
  | zero =>
    intro bl fs h
    match bl with
    | [] => rfl
    | [b] => rfl
    | b :: c :: rest => simp at h
  | succ fuel ih =>
    intro bl fs h
    match bl with
    | [] => rfl
    | [b] => rfl
    | b :: c :: rest =>
      by_cases hbc : (b.free && c.free) = true
      · obtain ⟨hb, hc⟩ : b.free = true ∧ c.free = true := by simpa using hbc
        have hlen : (Block.mk (b.size + c.size + cfg.hdrSize) b.free :: rest).length ≤ fuel := by
          simp at h ⊢; omega
        rw [show defragSweep cfg (fuel+1) (b :: c :: rest) fs
            = defragSweep cfg fuel (⟨b.size + c.size + cfg.hdrSize, b.free⟩ :: rest)
                (fs + (cfg.hdrSize : Int)) from by simp [defragSweep, hbc],
          ih _ _ hlen]
        unfold segVal
        simp [allocSum, hb, hc, Nat.succ_mul]
        omega
      · have hlen : (c :: rest).length ≤ fuel := by simp at h ⊢; omega
        have hrec := ih (c :: rest) fs hlen
        rw [show defragSweep cfg (fuel+1) (b :: c :: rest) fs
            = (b :: (defragSweep cfg fuel (c :: rest) fs).1,
               (defragSweep cfg fuel (c :: rest) fs).2) from by simp [defragSweep, hbc]]
        unfold segVal at hrec ⊢
        simp [allocSum, Nat.succ_mul] at hrec ⊢
        omega

theorem defragSweep_head (cfg : Config) :
    ∀ (fuel : Nat) (b : Block) (rest : List Block) (fs : Int), (b :: rest).length ≤ fuel →
      ∃ b2 rest2, (defragSweep cfg fuel (b :: rest) fs).1 = b2 :: rest2 ∧ b2.free = b.free := by
  intro fuel
  induction fuel with
  | zero =>
    intro b rest fs h
    match rest with
    | [] => exact ⟨b, [], rfl, rfl⟩
    | c :: tl => simp at h
  | succ fuel ih =>
    intro b rest fs h
    match rest with
    | [] => exact ⟨b, [], rfl, rfl⟩
    | c :: tl =>
      by_cases hbc : (b.free && c.free) = true
      · have hlen : (Block.mk (b.size + c.size + cfg.hdrSize) b.free :: tl).length ≤ fuel := by
          simp at h ⊢; omega
        obtain ⟨b2, rest2, h1, h2⟩ := ih ⟨b.size + c.size + cfg.hdrSize, b.free⟩ tl
          (fs + (cfg.hdrSize : Int)) hlen
        refine ⟨b2, rest2, ?_, h2⟩
        rw [show defragSweep cfg (fuel+1) (b :: c :: tl) fs
            = defragSweep cfg fuel (⟨b.size + c.size + cfg.hdrSize, b.free⟩ :: tl)
                (fs + (cfg.hdrSize : Int)) from by simp [defragSweep, hbc]]
        exact h1
      · exact ⟨b, (defragSweep cfg fuel (c :: tl) fs).1, by simp [defragSweep, hbc], rfl⟩

theorem defragSweep_noAdj (cfg : Config) :
    ∀ (fuel : Nat) (bl : List Block) (fs : Int), bl.length ≤ fuel →
      noAdjFree (defragSweep cfg fuel bl fs).1 = true := by
  intro fuel
  induction fuel with
  | zero =>
    intro bl fs h
    match bl with
    | [] => rfl
    | [b] => rfl
    | b :: c :: rest => simp at h
  | succ fuel ih =>
    intro bl fs h
    match bl with
    | [] => rfl
    | [b] => rfl
    | b :: c :: rest =>
      by_cases hbc : (b.free && c.free) = true
      · have hlen : (Block.mk (b.size + c.size + cfg.hdrSize) b.free :: rest).length ≤ fuel := by
          simp at h ⊢; omega
        rw [show defragSweep cfg (fuel+1) (b :: c :: rest) fs
            = defragSweep cfg fuel (⟨b.size + c.size + cfg.hdrSize, b.free⟩ :: rest)
                (fs + (cfg.hdrSize : Int)) from by simp [defragSweep, hbc]]
        exact ih _ _ hlen
      · have hlen : (c :: rest).length ≤ fuel := by simp at h ⊢; omega
        obtain ⟨c2, rest2, h1, h2⟩ := defragSweep_head cfg fuel c rest fs hlen
        rw [show (defragSweep cfg (fuel+1) (b :: c :: rest) fs).1
            = b :: (defragSweep cfg fuel (c :: rest) fs).1 from by simp [defragSweep, hbc]]
        rw [h1]
        have hrec := ih (c :: rest) fs hlen
        rw [h1] at hrec
        cases hb : b.free
        · simp [noAdjFree, hrec, hb]
        · have hcf : c.free = false := by
            cases hcf : c.free
            · rfl
            · exact absurd (by simp [hb, hcf]) hbc
          simp [noAdjFree, hrec, hb, h2, hcf]

theorem defragSweep_id (cfg : Config) :
    ∀ (fuel : Nat) (bl : List Block) (fs : Int), noAdjFree bl = true →
      defragSweep cfg fuel bl fs = (bl, fs) := by
  intro fuel
  induction fuel with
  | zero =>
    intro bl fs h
    match bl with
    | [] => rfl
    | [b] => rfl
    | b :: c :: rest => rfl
  | succ fuel ih =>
    intro bl fs h
    match bl with
    | [] => rfl
    | [b] => rfl
    | b :: c :: rest =>
      simp only [noAdjFree, Bool.and_eq_true, Bool.not_eq_true'] at h
      obtain ⟨hbc, h2⟩ := h
      simp [defragSweep, hbc, ih (c :: rest) fs h2]

theorem deframent_consVal (cfg : Config) (st : Heap) :
    consVal cfg (deframent_my_heap cfg st) = consVal cfg st := by
  unfold consVal deframent_my_heap
  exact defragSweep_segVal cfg st.blocks.length st.blocks st.freespace (le_refl _)

theorem deframent_noAdj (cfg : Config) (st : Heap) :
    noAdjFree (deframent_my_heap cfg st).blocks = true :=
  defragSweep_noAdj cfg st.blocks.length st.blocks st.freespace (le_refl _)

theorem deframent_id (cfg : Config) (st : Heap) (h : noAdjFree st.blocks = true) :
    deframent_my_heap cfg st = st := by
  unfold deframent_my_heap
  rw [defragSweep_id cfg st.blocks.length st.blocks st.freespace h]

/-! Facts about the first-fit search, the chain walk and the tail offset. -/

theorem search_some_decomp (s : Nat) :
    ∀ (bl : List Block) (i : Nat), search_freespace s bl = some i →
      ∃ pre b post, bl = pre ++ b :: post ∧ pre.length = i ∧ b.free = true ∧ s ≤ b.size ∧
        ∀ x ∈ pre, ¬ fits s x := by
  intro bl
  induction bl with
  | nil => intro i h; simp [search_freespace] at h
  | cons b rest ih =>
    intro i h
    by_cases hb : (b.free && decide (s ≤ b.size)) = true
    · obtain ⟨hf, hs⟩ : b.free = true ∧ s ≤ b.size := by simpa using hb
      simp [search_freespace, hb] at h
      exact ⟨[], b, rest, rfl, by simp [h], hf, hs, by simp⟩
    · simp only [search_freespace, hb, if_false, Bool.false_eq_true, Option.map_eq_some'] at h
      obtain ⟨j, hj, hij⟩ := h
      obtain ⟨pre, x, post, h1, h2, h3, h4, h5⟩ := ih j hj
      refine ⟨b :: pre, x, post, by simp [h1], by simp [h2, hij], h3, h4, ?_⟩
      intro y hy
      rcases List.mem_cons.mp hy with rfl | hy
      · intro hfit
        exact hb (by simp [fits] at hfit; simp [hfit.1, hfit.2])
      · exact h5 y hy

theorem search_none (s : Nat) :
    ∀ (bl : List Block), search_freespace s bl = none → ∀ x ∈ bl, ¬ fits s x := by
  intro bl
  induction bl with
  | nil => intro _ x hx; simp at hx
  | cons b rest ih =>
    intro h x hx
    by_cases hb : (b.free && decide (s ≤ b.size)) = true
    · simp [search_freespace, hb] at h
    · simp only [search_freespace, hb, if_false, Bool.false_eq_true, Option.map_eq_none'] at h
      rcases List.mem_cons.mp hx with rfl | hx
      · intro hfit
        exact hb (by simp [fits] at hfit; simp [hfit.1, hfit.2])
      · exact ih h x hx

theorem getD_mem_of_lt (bl : List Block) (j : Nat) (h : j < bl.length) :
    bl.getD j nullBlock ∈ bl := by
  induction bl generalizing j with
  | nil => simp at h
  | cons b rest ih =>
    cases j with
    | zero => simp
    | succ j => exact List.mem_cons_of_mem b (by simpa using ih j (by simpa using h))

theorem search_exists (s : Nat) (bl : List Block) (j : Nat) (hj : j < bl.length)
    (hfit : fits s (bl.getD j nullBlock)) :
    ∃ i, search_freespace s bl = some i := by
  cases hs : search_freespace s bl with
  | none => exact absurd hfit (search_none s bl hs _ (getD_mem_of_lt bl j hj))
  | some i => exact ⟨i, rfl⟩

theorem chainIndexOf_lt (cfg : Config) :
    ∀ (bl : List Block) (c tgt i : Nat), chainIndexOf cfg bl c tgt = some i →
      i < bl.length := by
  intro bl
  induction bl with
  | nil => intro c tgt i h; simp [chainIndexOf] at h
  | cons b rest ih =>
    intro c tgt i h
    by_cases hc : c = tgt
    · simp [chainIndexOf, hc] at h
      simp
      omega
    · simp only [chainIndexOf, hc, if_false, Option.map_eq_some'] at h
      obtain ⟨j, hj, hij⟩ := h
      have := ih (c + cfg.hdrSize + b.size) tgt j hj
      simp; omega

theorem chainIndexOf_addr (cfg : Config) :
    ∀ (pre : List Block) (x : Block) (post : List Block) (c : Nat),
      chainIndexOf cfg (pre ++ x :: post) c (c + extent cfg pre) = some pre.length := by
  intro pre
  induction pre with
  | nil => simp [chainIndexOf, extent]
  | cons b rest ih =>
    intro x post c
    have hpos := cfg.hpos
    have harr : c + extent cfg (b :: rest)
        = (c + cfg.hdrSize + b.size) + extent cfg rest := by
      simp [extent]; omega
    have hne : ¬ (c = (c + cfg.hdrSize + b.size) + extent cfg rest) := by omega
    rw [harr, List.cons_append]
    rw [show chainIndexOf cfg (b :: (rest ++ x :: post)) c
        ((c + cfg.hdrSize + b.size) + extent cfg rest)
        = (chainIndexOf cfg (rest ++ x :: post) (c + cfg.hdrSize + b.size)
            ((c + cfg.hdrSize + b.size) + extent cfg rest)).map (· + 1) from by
      simp [chainIndexOf, hne]]
    rw [ih x post (c + cfg.hdrSize + b.size)]
    rfl

theorem lastAddr_ge (cfg : Config) :
    ∀ (bl : List Block) (i : Nat), i < bl.length →
      ∃ la, lastAddr cfg bl = some la ∧ extent cfg (bl.take i) ≤ la := by
  intro bl
  induction bl with
  | nil => intro i h; simp at h
  | cons b rest ih =>
    intro i h
    cases rest with
    | nil =>
      have hi : i = 0 := by simp at h; omega
      exact ⟨0, rfl, by simp [hi, extent]⟩
    | cons c tl =>
      cases i with
      | zero =>
        obtain ⟨la, h1, _⟩ := ih 0 (by simp)
        exact ⟨cfg.hdrSize + b.size + la, by simp [lastAddr, h1], by simp [extent]⟩
      | succ i =>
        obtain ⟨la, h1, h2⟩ := ih i (by simpa using h)
        refine ⟨cfg.hdrSize + b.size + la, by simp [lastAddr, h1], ?_⟩
        simp [extent]
        omega

/-! Conservation of freespace plus allocated payload plus header overhead
across each operation, on good calls. -/

theorem fuseAt_segVal (cfg : Config) (bl : List Block) (i : Nat) (fs : Int)
    (hi : i < bl.length) (h : (bl.getD i nullBlock).free = true) :
    segVal cfg (fuseAt cfg bl i fs).2 (fuseAt cfg bl i fs).1 = segVal cfg fs bl := by
  obtain ⟨pre, x, post, hbl, hlen, hx⟩ := index_decomp bl i hi
  subst hbl
  subst hlen
  rw [getD_append_len] at h
  rw [fuseAt_append, segVal_append, fuse_segVal cfg post x fs h, ← segVal_append]

theorem setFree_length (bl : List Block) (i : Nat) (f : Bool) :
    (setFree bl i f).length = bl.length := by
  induction bl generalizing i with
  | nil => rfl
  | cons b rest ih =>
    cases i with
    | zero => rfl
    | succ i => simpa [setFree] using ih i

theorem freeMark_segVal (cfg : Config) (bl : List Block) (i : Nat) (fs : Int)
    (hi : i < bl.length) (hfree : (bl.getD i nullBlock).free = false) :
    segVal cfg (freeMark cfg bl i fs).2 (freeMark cfg bl i fs).1 = segVal cfg fs bl := by
  obtain ⟨pre, x, post, hbl, hlen, hx⟩ := index_decomp bl i hi
  have hxfree : x.free = false := by rw [hx]; exact hfree
  have hbl1 : setFree bl i true = pre ++ ⟨x.size, true⟩ :: post := by
    rw [hbl, ← hlen]; exact setFree_append pre x post true
  have hszx : (bl.getD i nullBlock).size = x.size := by rw [← hx]
  have hfa : fuseAt cfg (setFree bl i true) i (fs + ((bl.getD i nullBlock).size : Int))
      = (pre ++ (fuse cfg ⟨x.size, true⟩ post (fs + (x.size : Int))).1
            :: (fuse cfg ⟨x.size, true⟩ post (fs + (x.size : Int))).2.1,
         (fuse cfg ⟨x.size, true⟩ post (fs + (x.size : Int))).2.2) := by
    rw [hszx, hbl1, ← hlen]
    exact fuseAt_append cfg pre ⟨x.size, true⟩ post _
  have hsegA : segVal cfg
      (fuseAt cfg (setFree bl i true) i (fs + ((bl.getD i nullBlock).size : Int))).2
      (fuseAt cfg (setFree bl i true) i (fs + ((bl.getD i nullBlock).size : Int))).1
      = segVal cfg fs bl := by
    rw [hfa, hbl]
    have hstep : segVal cfg
        (fuse cfg ⟨x.size, true⟩ post (fs + (x.size : Int))).2.2
        ((fuse cfg ⟨x.size, true⟩ post (fs + (x.size : Int))).1
          :: (fuse cfg ⟨x.size, true⟩ post (fs + (x.size : Int))).2.1)
        = segVal cfg (fs + (x.size : Int)) (⟨x.size, true⟩ :: post) :=
      fuse_segVal cfg post ⟨x.size, true⟩ (fs + (x.size : Int)) rfl
    rw [segVal_append, hstep, segVal_append]
    simp [segVal, allocSum, hxfree]
    ring
  unfold freeMark
  by_cases hc : ((i != 0) &&
      ((fuseAt cfg (setFree bl i true) i
        (fs + ((bl.getD i nullBlock).size : Int))).1.getD (i-1) nullBlock).free) = true
  · obtain ⟨hi0, hpf⟩ : (i != 0) = true ∧
        ((fuseAt cfg (setFree bl i true) i
          (fs + ((bl.getD i nullBlock).size : Int))).1.getD (i-1) nullBlock).free = true := by
      simpa using hc
    have hlt : i - 1 < (fuseAt cfg (setFree bl i true) i
        (fs + ((bl.getD i nullBlock).size : Int))).1.length := by
      rw [hfa]
      simp
      omega
    simp only [hc, if_true]
    rw [fuseAt_segVal cfg _ (i-1) _ hlt hpf]
    exact hsegA
  · simp only [hc, if_false]
    exact hsegA

theorem myFreeBody_consVal (cfg : Config) (st : Heap) (q : Nat)
    (hgood : freeGood cfg st (some q) = true) :
    consVal cfg (myFreeBody cfg q st) = consVal cfg st := by
  cases hla : lastAddr cfg st.blocks with
  | none =>
    have hun : myFreeBody cfg q st = st := by
      unfold myFreeBody; rw [hla]
    rw [hun]
  | some la =>
    have hun : myFreeBody cfg q st
        = (if (decide (cfg.hdrSize ≤ q) && decide (q - cfg.hdrSize ≤ la)) = true then
            match chainIndexOf cfg st.blocks 0 (q - cfg.hdrSize) with
            | none => st
            | some i =>
              (⟨(freeMark cfg st.blocks i st.freespace).1,
                (freeMark cfg st.blocks i st.freespace).2, st.first⟩ : Heap)
          else st) := by
      unfold myFreeBody; rw [hla]
    rw [hun]
    by_cases hrange : (decide (cfg.hdrSize ≤ q) && decide (q - cfg.hdrSize ≤ la)) = true
    · rw [if_pos hrange]
      cases hci : chainIndexOf cfg st.blocks 0 (q - cfg.hdrSize) with
      | none => rfl
      | some i =>
        have hq : ¬ (q < cfg.hdrSize) := by
          have h2 := hrange
          simp only [Bool.and_eq_true, decide_eq_true_eq] at h2
          omega
        have hfree : (st.blocks.getD i nullBlock).free = false := by
          have hg : (if q < cfg.hdrSize then true
              else match chainIndexOf cfg st.blocks 0 (q - cfg.hdrSize) with
                | none => true
                | some j => !(st.blocks.getD j nullBlock).free) = true := hgood
          rw [if_neg hq, hci] at hg
          simpa using hg
        have hi : i < st.blocks.length := chainIndexOf_lt cfg st.blocks 0 _ i hci
        show segVal cfg (freeMark cfg st.blocks i st.freespace).2
            (freeMark cfg st.blocks i st.freespace).1 = consVal cfg st
        exact freeMark_segVal cfg st.blocks i st.freespace hi hfree
    · rw [if_neg hrange]

theorem my_free_consVal (cfg : Config) (st : Heap) (p : Option Nat)
    (h : freeGood cfg st p = true) :
    consVal cfg (my_free cfg p st) = consVal cfg st := by
  cases p with
  | none => rfl
  | some q =>
    show consVal cfg (deframent_my_heap cfg (myFreeBody cfg q st)) = consVal cfg st
    rw [deframent_consVal, myFreeBody_consVal cfg st q h]

/-! Branch equations for my_malloc. -/

theorem my_malloc_zero (cfg : Config) (st : Heap) :
    my_malloc cfg 0 st = (st, none) := by
  simp [my_malloc]

theorem my_malloc_first (cfg : Config) (st : Heap) (s : Nat) (hs : s ≠ 0)
    (hf : st.first = true) :
    my_malloc cfg s st
      = (⟨[⟨s, false⟩], st.freespace - ((s + cfg.hdrSize : Nat) : Int), false⟩,
         some cfg.hdrSize) := by
  unfold my_malloc
  rw [if_neg hs, if_pos hf]

theorem my_malloc_tail (cfg : Config) (st : Heap) (s : Nat) (hs : s ≠ 0)
    (hf : st.first = false)
    (hse : search_freespace s st.blocks = none) :
    my_malloc cfg s st
      = (⟨st.blocks ++ [⟨s, false⟩],
          st.freespace - ((s + cfg.hdrSize : Nat) : Int), st.first⟩,
         some (extent cfg st.blocks + cfg.hdrSize)) := by
  unfold my_malloc
  rw [if_neg hs, if_neg (by simp [hf]), hse]

theorem my_malloc_split (cfg : Config) (st : Heap) (s i : Nat) (hs : s ≠ 0)
    (hf : st.first = false)
    (hse : search_freespace s st.blocks = some i)
    (hth : s + cfg.THRESHOLD ≤ (st.blocks.getD i nullBlock).size) :
    my_malloc cfg s st
      = (⟨setFree (splitList cfg st.blocks i s) i false,
          st.freespace - ((st.blocks.getD i nullBlock).size : Int)
            + (((st.blocks.getD i nullBlock).size - (s + cfg.hdrSize) : Nat) : Int),
          st.first⟩,
         some (blockAddr cfg st.blocks i + cfg.hdrSize)) := by
  unfold my_malloc
  rw [if_neg hs, if_neg (by simp [hf]), hse]
  split
  · rename_i heq
    exact absurd heq (by simp)
  · rename_i j heq
    injection heq with heq2
    subst heq2
    dsimp only
    rw [if_pos hth]

theorem my_malloc_exact (cfg : Config) (st : Heap) (s i : Nat) (hs : s ≠ 0)
    (hf : st.first = false)
    (hse : search_freespace s st.blocks = some i)
    (hth : ¬ (s + cfg.THRESHOLD ≤ (st.blocks.getD i nullBlock).size)) :
    my_malloc cfg s st
      = (⟨setFree st.blocks i false, st.freespace - (s : Int), st.first⟩,
         some (blockAddr cfg st.blocks i + cfg.hdrSize)) := by
  unfold my_malloc
  rw [if_neg hs, if_neg (by simp [hf]), hse]
  split
  · rename_i heq
    exact absurd heq (by simp)
  · rename_i j heq
    injection heq with heq2
    subst heq2
    dsimp only
    rw [if_neg hth]

theorem my_malloc_consVal (cfg : Config) (st : Heap) (s : Nat)
    (h : mallocGood cfg st s = true) :
    consVal cfg (my_malloc cfg s st).1 = consVal cfg st := by
  by_cases hs : s = 0
  · rw [hs, my_malloc_zero]
  · cases hf : st.first with
    | true =>
      have hempty : st.blocks = [] := by
        unfold mallocGood at h
        rw [if_neg hs, if_pos hf] at h
        simp only [Bool.and_eq_true, List.isEmpty_iff] at h
        exact h.1
      rw [my_malloc_first cfg st s hs hf]
      unfold consVal
      rw [hempty]
      simp [segVal, allocSum]
      ring
    | false =>
      have hg : (match search_freespace s st.blocks with
          | none => decide (extent cfg st.blocks + (s + cfg.hdrSize) ≤ cfg.BUFF_SIZE)
          | some i =>
            decide (s + cfg.THRESHOLD ≤ (st.blocks.getD i nullBlock).size)
              || decide ((st.blocks.getD i nullBlock).size = s)) = true := by
        have h2 := h
        unfold mallocGood at h2
        rw [if_neg hs, if_neg (by simp [hf])] at h2
        exact h2
      cases hse : search_freespace s st.blocks with
      | none =>
        rw [my_malloc_tail cfg st s hs hf hse]
        unfold consVal segVal
        rw [allocSum_append, List.length_append]
        simp [allocSum]
        ring
      | some i =>
        rw [hse] at hg
        obtain ⟨pre, x, post, hbl, hlen, hxf, hxs, _⟩ := search_some_decomp s st.blocks i hse
        have hgetD : st.blocks.getD i nullBlock = x := by
          rw [hbl, ← hlen]; exact getD_append_len pre x post
        by_cases hth : s + cfg.THRESHOLD ≤ (st.blocks.getD i nullBlock).size
        · rw [my_malloc_split cfg st s i hs hf hse hth]
          have hsH : s + cfg.hdrSize ≤ x.size := by
            have hwf := cfg.hwf; rw [hgetD] at hth; omega
          have hsf : setFree (splitList cfg st.blocks i s) i false
              = pre ++ ⟨s, false⟩ :: ⟨x.size - (s + cfg.hdrSize), true⟩ :: post := by
            rw [hbl, ← hlen, splitList_append]
            exact setFree_append pre ⟨s, x.free⟩
              (⟨x.size - (s + cfg.hdrSize), true⟩ :: post) false
          show segVal cfg _ _ = consVal cfg st
          rw [hsf, hgetD]
          unfold consVal
          rw [hbl, segVal_append, segVal_append]
          simp [segVal, allocSum, hxf, Nat.succ_mul]
          push_cast [hsH]
          ring
        · rw [my_malloc_exact cfg st s i hs hf hse hth]
          have hxsz : x.size = s := by
            simp only [Bool.or_eq_true, decide_eq_true_eq] at hg
            rcases hg with h1 | h2
            · exact absurd h1 hth
            · rw [← hgetD]; exact h2
          have hsf : setFree st.blocks i false = pre ++ ⟨x.size, false⟩ :: post := by
            rw [hbl, ← hlen]; exact setFree_append pre x post false
          show segVal cfg _ _ = consVal cfg st
          rw [hsf]
          unfold consVal
          rw [hbl, segVal_append, segVal_append]
          simp [segVal, allocSum, hxf, hxsz]
          ring

/-! Branch equations for my_realloc. -/

theorem getD_append_len_succ (pre : List Block) (x c : Block) (post : List Block) :
    (pre ++ x :: c :: post).getD (pre.length + 1) nullBlock = c := by
  induction pre with
  | nil => rfl
  | cons b rest ih => simpa using ih

theorem my_realloc_none (cfg : Config) (s : Nat) (st : Heap) :
    my_realloc cfg none s st = .ok (my_malloc cfg s st) := rfl

theorem my_realloc_zero (cfg : Config) (st : Heap) (q : Nat) :
    my_realloc cfg (some q) 0 st = .ok (my_free cfg (some q) st, none) := by
  unfold my_realloc
  dsimp only
  rw [if_pos rfl]

theorem my_realloc_shrink_split (cfg : Config) (st : Heap) (q s i : Nat)
    (hsz : s ≠ 0) (hq : ¬ (q < cfg.hdrSize))
    (hci : chainIndexOf cfg st.blocks 0 (q - cfg.hdrSize) = some i)
    (hlt : ¬ ((st.blocks.getD i nullBlock).size < s))
    (hgt : s < (st.blocks.getD i nullBlock).size)
    (hth : s + cfg.THRESHOLD ≤ (st.blocks.getD i nullBlock).size) :
    my_realloc cfg (some q) s st
      = .ok (⟨splitList cfg st.blocks i s,
              st.freespace
                + (((st.blocks.getD i nullBlock).size - (s + cfg.hdrSize) : Nat) : Int),
              st.first⟩, some q) := by
  unfold my_realloc
  dsimp only
  rw [if_neg hsz, if_neg hq, hci]
  dsimp only
  rw [if_neg hlt, if_pos hgt, if_pos hth]

theorem my_realloc_shrink_fallback (cfg : Config) (st : Heap) (q s i : Nat)
    (hsz : s ≠ 0) (hq : ¬ (q < cfg.hdrSize))
    (hci : chainIndexOf cfg st.blocks 0 (q - cfg.hdrSize) = some i)
    (hlt : ¬ ((st.blocks.getD i nullBlock).size < s))
    (hgt : s < (st.blocks.getD i nullBlock).size)
    (hth : ¬ (s + cfg.THRESHOLD ≤ (st.blocks.getD i nullBlock).size)) :
    my_realloc cfg (some q) s st = .error .overrun := by
  unfold my_realloc
  dsimp only
  rw [if_neg hsz, if_neg hq, hci]
  dsimp only
  rw [if_neg hlt, if_pos hgt, if_neg hth]

theorem my_realloc_equal (cfg : Config) (st : Heap) (q s i : Nat)
    (hsz : s ≠ 0) (hq : ¬ (q < cfg.hdrSize))
    (hci : chainIndexOf cfg st.blocks 0 (q - cfg.hdrSize) = some i)
    (hlt : ¬ ((st.blocks.getD i nullBlock).size < s))
    (hgt : ¬ (s < (st.blocks.getD i nullBlock).size)) :
    my_realloc cfg (some q) s st = .error .noReturn := by
  unfold my_realloc
  dsimp only
  rw [if_neg hsz, if_neg hq, hci]
  dsimp only
  rw [if_neg hlt, if_neg hgt]

theorem my_realloc_tail (cfg : Config) (st : Heap) (q s i : Nat)
    (hsz : s ≠ 0) (hq : ¬ (q < cfg.hdrSize))
    (hci : chainIndexOf cfg st.blocks 0 (q - cfg.hdrSize) = some i)
    (hlt : (st.blocks.getD i nullBlock).size < s)
    (hnext : ¬ (i + 1 < st.blocks.length)) :
    my_realloc cfg (some q) s st = .error .nullDeref := by
  unfold my_realloc
  dsimp only
  rw [if_neg hsz, if_neg hq, hci]
  dsimp only
  rw [if_pos hlt, if_neg hnext]

theorem my_realloc_expand_fallback (cfg : Config) (st : Heap) (q s i : Nat)
    (hsz : s ≠ 0) (hq : ¬ (q < cfg.hdrSize))
    (hci : chainIndexOf cfg st.blocks 0 (q - cfg.hdrSize) = some i)
    (hlt : (st.blocks.getD i nullBlock).size < s)
    (hnext : i + 1 < st.blocks.length)
    (hcond : ¬ (((st.blocks.getD (i+1) nullBlock).free &&
      decide (wsub (s - (st.blocks.getD i nullBlock).size) cfg.hdrSize
        ≤ (st.blocks.getD (i+1) nullBlock).size)) = true)) :
    my_realloc cfg (some q) s st
      = .ok (my_free cfg (some q) (my_malloc cfg s st).1, (my_malloc cfg s st).2) := by
  unfold my_realloc
  dsimp only
  rw [if_neg hsz, if_neg hq, hci]
  dsimp only
  rw [if_pos hlt, if_pos hnext, if_neg hcond]

theorem my_realloc_expand_absorb (cfg : Config) (st : Heap) (q s i : Nat)
    (hsz : s ≠ 0) (hq : ¬ (q < cfg.hdrSize))
    (hci : chainIndexOf cfg st.blocks 0 (q - cfg.hdrSize) = some i)
    (hlt : (st.blocks.getD i nullBlock).size < s)
    (hnext : i + 1 < st.blocks.length)
    (hcond : ((st.blocks.getD (i+1) nullBlock).free &&
      decide (wsub (s - (st.blocks.getD i nullBlock).size) cfg.hdrSize
        ≤ (st.blocks.getD (i+1) nullBlock).size)) = true)
    (hth : ¬ (s + cfg.THRESHOLD ≤ (st.blocks.getD i nullBlock).size + cfg.hdrSize
        + (st.blocks.getD (i+1) nullBlock).size)) :
    my_realloc cfg (some q) s st
      = .ok (⟨absorbNext cfg st.blocks i,
              st.freespace - ((st.blocks.getD (i+1) nullBlock).size : Int),
              st.first⟩, some q) := by
  unfold my_realloc
  dsimp only
  rw [if_neg hsz, if_neg hq, hci]
  dsimp only
  rw [if_pos hlt, if_pos hnext, if_pos hcond, if_neg hth]

theorem my_realloc_expand_absorb_split (cfg : Config) (st : Heap) (q s i : Nat)
    (hsz : s ≠ 0) (hq : ¬ (q < cfg.hdrSize))
    (hci : chainIndexOf cfg st.blocks 0 (q - cfg.hdrSize) = some i)
    (hlt : (st.blocks.getD i nullBlock).size < s)
    (hnext : i + 1 < st.blocks.length)
    (hcond : ((st.blocks.getD (i+1) nullBlock).free &&
      decide (wsub (s - (st.blocks.getD i nullBlock).size) cfg.hdrSize
        ≤ (st.blocks.getD (i+1) nullBlock).size)) = true)
    (hth : s + cfg.THRESHOLD ≤ (st.blocks.getD i nullBlock).size + cfg.hdrSize
        + (st.blocks.getD (i+1) nullBlock).size) :
    my_realloc cfg (some q) s st
      = .ok (⟨splitList cfg (absorbNext cfg st.blocks i) i s,
              st.freespace - ((st.blocks.getD (i+1) nullBlock).size : Int)
                + (((st.blocks.getD i nullBlock).size + cfg.hdrSize
                    + (st.blocks.getD (i+1) nullBlock).size - (s + cfg.hdrSize) : Nat) : Int),
              st.first⟩, some q) := by
  unfold my_realloc
  dsimp only
  rw [if_neg hsz, if_neg hq, hci]
  dsimp only
  rw [if_pos hlt, if_pos hnext, if_pos hcond, if_pos hth]

theorem runOp_realloc_consVal (cfg : Config) (st : Heap) (p : Option Nat) (s : Nat)
    (h : reallocGood cfg st p s = true) :
    consVal cfg (runOp cfg st (.realloc p s)) = consVal cfg st := by
  cases p with
  | none =>
    have hmg : mallocGood cfg st s = true := h
    have hrun : runOp cfg st (.realloc none s) = (my_malloc cfg s st).1 := rfl
    rw [hrun]
    exact my_malloc_consVal cfg st s hmg
  | some q =>
    by_cases hsz : s = 0
    · subst hsz
      have hfg : freeGood cfg st (some q) = true := h
      have hrun : runOp cfg st (.realloc (some q) 0) = my_free cfg (some q) st := by
        show (match my_realloc cfg (some q) 0 st with
          | .ok r => r.1 | .error _ => st) = _
        rw [my_realloc_zero]
      rw [hrun]
      exact my_free_consVal cfg st (some q) hfg
    · by_cases hq : q < cfg.hdrSize
      · exfalso
        have h2 := h
        unfold reallocGood at h2
        dsimp only at h2
        rw [if_neg hsz, if_pos hq] at h2
        exact Bool.false_ne_true h2
      · cases hci : chainIndexOf cfg st.blocks 0 (q - cfg.hdrSize) with
        | none =>
          exfalso
          have h2 := h
          unfold reallocGood at h2
          dsimp only at h2
          rw [if_neg hsz, if_neg hq, hci] at h2
          exact Bool.false_ne_true h2
        | some i =>
          have h2 := h
          unfold reallocGood at h2
          dsimp only at h2
          rw [if_neg hsz, if_neg hq, hci] at h2
          dsimp only at h2
          rw [Bool.and_eq_true] at h2
          obtain ⟨hbf', hrest⟩ := h2
          have hbf : (st.blocks.getD i nullBlock).free = false := by simpa using hbf'
          have hi : i < st.blocks.length := chainIndexOf_lt cfg st.blocks 0 _ i hci
          obtain ⟨pre, x, post, hbl, hlen, hx⟩ := index_decomp st.blocks i hi
          have hgx : st.blocks.getD i nullBlock = x := hx.symm
          have hxf : x.free = false := by rw [hx]; exact hbf
          by_cases hlt : (st.blocks.getD i nullBlock).size < s
          · by_cases hnext : i + 1 < st.blocks.length
            · have hpost : post ≠ [] := by
                intro he
                rw [hbl, he] at hnext
                simp at hnext
                omega
              obtain ⟨c, post2, rfl⟩ : ∃ c post2, post = c :: post2 := by
                cases post with
                | nil => exact absurd rfl hpost
                | cons c post2 => exact ⟨c, post2, rfl⟩
              have hgc : st.blocks.getD (i+1) nullBlock = c := by
                rw [hbl, ← hlen]; exact getD_append_len_succ pre x c post2
              by_cases hcond : (((st.blocks.getD (i+1) nullBlock).free &&
                  decide (wsub (s - (st.blocks.getD i nullBlock).size) cfg.hdrSize
                    ≤ (st.blocks.getD (i+1) nullBlock).size)) = true)
              · have hcf : c.free = true := by
                  have h3 := hcond
                  rw [Bool.and_eq_true] at h3
                  rw [← hgc]
                  exact h3.1
                by_cases hth : s + cfg.THRESHOLD ≤ (st.blocks.getD i nullBlock).size
                    + cfg.hdrSize + (st.blocks.getD (i+1) nullBlock).size
                · have hrun : runOp cfg st (.realloc (some q) s)
                      = ⟨splitList cfg (absorbNext cfg st.blocks i) i s,
                         st.freespace - ((st.blocks.getD (i+1) nullBlock).size : Int)
                           + (((st.blocks.getD i nullBlock).size + cfg.hdrSize
                               + (st.blocks.getD (i+1) nullBlock).size
                               - (s + cfg.hdrSize) : Nat) : Int),
                         st.first⟩ := by
                    show (match my_realloc cfg (some q) s st with
                      | .ok r => r.1 | .error _ => st) = _
                    rw [my_realloc_expand_absorb_split cfg st q s i hsz hq hci hlt hnext
                      hcond hth]
                  rw [hrun]
                  have habs : absorbNext cfg st.blocks i
                      = pre ++ ⟨x.size + cfg.hdrSize + c.size, x.free⟩ :: post2 := by
                    rw [hbl, ← hlen]; exact absorbNext_append cfg pre x c post2
                  have hsplit : splitList cfg (absorbNext cfg st.blocks i) i s
                      = pre ++ ⟨s, x.free⟩
                          :: ⟨x.size + cfg.hdrSize + c.size - (s + cfg.hdrSize), true⟩
                          :: post2 := by
                    rw [habs, ← hlen]
                    exact splitList_append cfg pre ⟨x.size + cfg.hdrSize + c.size, x.free⟩
                      post2 s
                  have hsH : s + cfg.hdrSize ≤ x.size + cfg.hdrSize + c.size := by
                    have hwf := cfg.hwf
                    rw [hgx, hgc] at hth
                    omega
                  rw [hgx, hgc]
                  unfold consVal
                  rw [hsplit, hbl, segVal_append, segVal_append]
                  simp [segVal, allocSum, hxf, hcf, Nat.succ_mul]
                  push_cast [hsH]
                  ring
                · have hrun : runOp cfg st (.realloc (some q) s)
                      = ⟨absorbNext cfg st.blocks i,
                         st.freespace - ((st.blocks.getD (i+1) nullBlock).size : Int),
                         st.first⟩ := by
                    show (match my_realloc cfg (some q) s st with
                      | .ok r => r.1 | .error _ => st) = _
                    rw [my_realloc_expand_absorb cfg st q s i hsz hq hci hlt hnext
                      hcond hth]
                  rw [hrun]
                  have habs : absorbNext cfg st.blocks i
                      = pre ++ ⟨x.size + cfg.hdrSize + c.size, x.free⟩ :: post2 := by
                    rw [hbl, ← hlen]; exact absorbNext_append cfg pre x c post2
                  rw [hgc]
                  unfold consVal
                  rw [habs, hbl, segVal_append, segVal_append]
                  simp [segVal, allocSum, hxf, hcf, Nat.succ_mul]
                  ring
              · have hrest2 : (mallocGood cfg st s
                    && freeGood cfg (my_malloc cfg s st).1 (some q)) = true := by
                  rw [if_pos hlt, if_pos hnext, if_neg hcond] at hrest
                  exact hrest
                rw [Bool.and_eq_true] at hrest2
                have hrun : runOp cfg st (.realloc (some q) s)
                    = my_free cfg (some q) (my_malloc cfg s st).1 := by
                  show (match my_realloc cfg (some q) s st with
                    | .ok r => r.1 | .error _ => st) = _
                  rw [my_realloc_expand_fallback cfg st q s i hsz hq hci hlt hnext hcond]
                rw [hrun,
                  my_free_consVal cfg (my_malloc cfg s st).1 (some q) hrest2.2,
                  my_malloc_consVal cfg st s hrest2.1]
            · have hrun : runOp cfg st (.realloc (some q) s) = st := by
                show (match my_realloc cfg (some q) s st with
                  | .ok r => r.1 | .error _ => st) = _
                rw [my_realloc_tail cfg st q s i hsz hq hci hlt hnext]
              rw [hrun]
          · by_cases hsgt : s < (st.blocks.getD i nullBlock).size
            · have hth : s + cfg.THRESHOLD ≤ (st.blocks.getD i nullBlock).size := by
                rw [if_neg hlt, if_pos hsgt] at hrest
                simpa using hrest
              have hrun : runOp cfg st (.realloc (some q) s)
                  = ⟨splitList cfg st.blocks i s,
                     st.freespace
                       + (((st.blocks.getD i nullBlock).size
                           - (s + cfg.hdrSize) : Nat) : Int),
                     st.first⟩ := by
                show (match my_realloc cfg (some q) s st with
                  | .ok r => r.1 | .error _ => st) = _
                rw [my_realloc_shrink_split cfg st q s i hsz hq hci hlt hsgt hth]
              rw [hrun]
              have hsplit : splitList cfg st.blocks i s
                  = pre ++ ⟨s, x.free⟩ :: ⟨x.size - (s + cfg.hdrSize), true⟩ :: post := by
                rw [hbl, ← hlen]; exact splitList_append cfg pre x post s
              have hsH : s + cfg.hdrSize ≤ x.size := by
                have hwf := cfg.hwf
                rw [hgx] at hth
                omega
              rw [hgx]
              unfold consVal
              rw [hsplit, hbl, segVal_append, segVal_append]
              simp [segVal, allocSum, hxf, Nat.succ_mul]
              push_cast [hsH]
              ring
            · have hrun : runOp cfg st (.realloc (some q) s) = st := by
                show (match my_realloc cfg (some q) s st with
                  | .ok r => r.1 | .error _ => st) = _
                rw [my_realloc_equal cfg st q s i hsz hq hci hlt hsgt]
              rw [hrun]

theorem runOp_consVal (cfg : Config) (st : Heap) (op : Op)
    (h : goodOp cfg st op = true) :
    consVal cfg (runOp cfg st op) = consVal cfg st := by
  cases op with
  | malloc s => exact my_malloc_consVal cfg st s h
  | free p => exact my_free_consVal cfg st p h
  | realloc p s => exact runOp_realloc_consVal cfg st p s h

theorem runOps_consVal (cfg : Config) :
    ∀ (ops : List Op) (st : Heap), goodTrace cfg st ops = true →
      consVal cfg (runOps cfg st ops) = consVal cfg st := by
  intro ops
  induction ops with
  | nil => intro st _; rfl
  | cons op rest ih =>
    intro st h
    rw [goodTrace] at h
    rw [Bool.and_eq_true] at h
    show consVal cfg (runOps cfg (runOp cfg st op) rest) = consVal cfg st
    rw [ih (runOp cfg st op) h.2, runOp_consVal cfg st op h.1]

/-! Claim C1. -/

/-- C1, counterexample to the claim as stated: the trace malloc 10, malloc 10,
free of the first block, malloc 8 serves the last request from the free
10-byte block (oversized, below threshold) and decrements freespace by 8
instead of 10; freespace plus allocated payload plus header overhead then
exceeds the capacity by 2. -/
theorem C1_counterexample :
    ¬ conserved cfgA (runOps cfgA (initHeap cfgA)
      [Op.malloc 10, Op.malloc 10, Op.free (some 8), Op.malloc 8]) := by decide

/-- C1, amended: for every sequence of allocate, deallocate and resize calls
from the initial arena in which no allocation (outer or internal to resize)
is served by an oversized below-threshold fit, no deallocation or resize
targets an already-free block, allocations stay within capacity, and every
resize stays on a defined path, freespace plus the payload sizes of the
allocated blocks plus one header per existing block equals the capacity at
every point between calls. -/
theorem C1_conservation_good (cfg : Config) (ops : List Op)
    (h : goodTrace cfg (initHeap cfg) ops = true) :
    conserved cfg (runOps cfg (initHeap cfg) ops) := by
  unfold conserved
  rw [runOps_consVal cfg ops (initHeap cfg) h]
  unfold consVal segVal initHeap
  simp [allocSum]

/-- C1, witness: a concrete good trace (first call, tail extension, free,
exact-fit reuse) for which the amended conservation holds. -/
theorem C1_conservation_good_witness :
    goodTrace cfgA (initHeap cfgA)
        [Op.malloc 10, Op.malloc 10, Op.free (some 26), Op.malloc 10] = true
      ∧ conserved cfgA (runOps cfgA (initHeap cfgA)
        [Op.malloc 10, Op.malloc 10, Op.free (some 26), Op.malloc 10]) :=
  ⟨by decide, C1_conservation_good cfgA
    [Op.malloc 10, Op.malloc 10, Op.free (some 26), Op.malloc 10] (by decide)⟩

/-! Claim C4. -/

/-- C4, counterexample to the claim as stated: in the initial state before any
allocation (an observation point between public calls) the counter holds the
whole capacity while no chain block exists at all, so the sum of the free
blocks' payload sizes is 0. -/
theorem C4_counterexample :
    ¬ ((initHeap cfgA).freespace = (freeSum (initHeap cfgA).blocks : Int)) := by decide

/-- C4, amended: on good traces (as in the amended C1) the counter equals the
sum of the free blocks' payload sizes plus the untouched tail of the arena,
capacity minus the bytes consumed by all blocks and their headers. -/
theorem C4_freespace_counter (cfg : Config) (ops : List Op)
    (h : goodTrace cfg (initHeap cfg) ops = true) :
    (runOps cfg (initHeap cfg) ops).freespace
      = (freeSum (runOps cfg (initHeap cfg) ops).blocks : Int)
        + ((cfg.BUFF_SIZE : Int)
            - (extent cfg (runOps cfg (initHeap cfg) ops).blocks : Int)) := by
  have hc := runOps_consVal cfg ops (initHeap cfg) h
  have hinit : consVal cfg (initHeap cfg) = (cfg.BUFF_SIZE : Int) := by
    unfold consVal segVal initHeap
    simp [allocSum]
  rw [hinit] at hc
  unfold consVal segVal at hc
  have hext : (extent cfg (runOps cfg (initHeap cfg) ops).blocks : Int)
      = (((runOps cfg (initHeap cfg) ops).blocks.length * cfg.hdrSize : Nat) : Int)
        + (allocSum (runOps cfg (initHeap cfg) ops).blocks : Int)
        + (freeSum (runOps cfg (initHeap cfg) ops).blocks : Int) := by
    have he := extent_eq cfg (runOps cfg (initHeap cfg) ops).blocks
    exact_mod_cast congrArg (fun n : Nat => (n : Int)) he
  linarith [hc, hext]

/-- C4, witness: the concrete good trace of the C1 witness, for which the
counter equals free payload plus untouched arena tail. -/
theorem C4_freespace_counter_witness :
    goodTrace cfgA (initHeap cfgA)
        [Op.malloc 10, Op.malloc 10, Op.free (some 26), Op.malloc 10] = true
      ∧ (runOps cfgA (initHeap cfgA)
          [Op.malloc 10, Op.malloc 10, Op.free (some 26), Op.malloc 10]).freespace
        = (freeSum (runOps cfgA (initHeap cfgA)
            [Op.malloc 10, Op.malloc 10, Op.free (some 26), Op.malloc 10]).blocks : Int)
          + ((cfgA.BUFF_SIZE : Int)
              - (extent cfgA (runOps cfgA (initHeap cfgA)
                  [Op.malloc 10, Op.malloc 10, Op.free (some 26), Op.malloc 10]).blocks : Int)) :=
  ⟨by decide, C4_freespace_counter cfgA
    [Op.malloc 10, Op.malloc 10, Op.free (some 26), Op.malloc 10] (by decide)⟩

/-! Facts about adjacency of free blocks, list prefixes, and invalid frees. -/

theorem noAdjFree_tail (a : Block) (l : List Block)
    (h : noAdjFree (a :: l) = true) : noAdjFree l = true := by
  cases l with
  | nil => rfl
  | cons d t =>
    simp only [noAdjFree, Bool.and_eq_true] at h
    exact h.2

theorem noAdjFree_pair :
    ∀ (pre : List Block) (b c : Block) (post : List Block),
      noAdjFree (pre ++ b :: c :: post) = true → (b.free && c.free) = false := by
  intro pre
  induction pre with
  | nil =>
    intro b c post h
    simp only [List.nil_append, noAdjFree, Bool.and_eq_true, Bool.not_eq_true'] at h
    exact h.1
  | cons a rest ih =>
    intro b c post h
    exact ih b c post (noAdjFree_tail a _ h)

theorem take_append_len (pre l : List Block) : (pre ++ l).take pre.length = pre := by
  induction pre with
  | nil => rfl
  | cons a rest ih => simp [ih]

theorem take_append_len_succ (pre : List Block) (y : Block) (l : List Block) :
    (pre ++ y :: l).take (pre.length + 1) = pre ++ [y] := by
  induction pre with
  | nil => rfl
  | cons a rest ih => simpa using ih

theorem getLast_append_single :
    ∀ (l : List Block) (a : Block), (l ++ [a]).getLast? = some a := by
  intro l
  induction l with
  | nil => intro a; rfl
  | cons b rest ih =>
    intro a
    cases hr : rest ++ [a] with
    | nil => exact absurd hr (by simp)
    | cons c t =>
      rw [List.cons_append, hr, List.getLast?_cons_cons, ← hr, ih a]

theorem myFreeBody_invalid (cfg : Config) (st : Heap) (q : Nat)
    (h : validTarget cfg st q = false) : myFreeBody cfg q st = st := by
  cases hla : lastAddr cfg st.blocks with
  | none => unfold myFreeBody; rw [hla]
  | some la =>
    have hv : validTarget cfg st q
        = ((decide (cfg.hdrSize ≤ q) && decide (q - cfg.hdrSize ≤ la))
            && (chainIndexOf cfg st.blocks 0 (q - cfg.hdrSize)).isSome) := by
      unfold validTarget; rw [hla]
    rw [hv] at h
    have hun : myFreeBody cfg q st
        = (if (decide (cfg.hdrSize ≤ q) && decide (q - cfg.hdrSize ≤ la)) = true then
            match chainIndexOf cfg st.blocks 0 (q - cfg.hdrSize) with
            | none => st
            | some i =>
              (⟨(freeMark cfg st.blocks i st.freespace).1,
                (freeMark cfg st.blocks i st.freespace).2, st.first⟩ : Heap)
          else st) := by
      unfold myFreeBody; rw [hla]
    rw [hun]
    by_cases hrange : (decide (cfg.hdrSize ≤ q) && decide (q - cfg.hdrSize ≤ la)) = true
    · rw [if_pos hrange]
      rw [hrange, Bool.true_and] at h
      cases hci : chainIndexOf cfg st.blocks 0 (q - cfg.hdrSize) with
      | none => rfl
      | some i => rw [hci] at h; simp at h
    · rw [if_neg hrange]

/-! Claim C10. -/

/-- C10: deallocate of a null pointer returns at once, before the
defragmentation sweep, leaving the chain, all block metadata, and the
freespace counter exactly unchanged in any state; an invalid non-null
pointer instead still runs the sweep, which does mutate a state holding two
adjacent free blocks, as the second conjunct shows. -/
theorem C10_null_free :
    (∀ (cfg : Config) (st : Heap), my_free cfg none st = st)
      ∧ my_free cfgA (some 1) ⟨[⟨5, true⟩, ⟨5, true⟩], 50, false⟩
          ≠ (⟨[⟨5, true⟩, ⟨5, true⟩], 50, false⟩ : Heap) :=
  ⟨fun _ _ => rfl, by decide⟩

/-! Claim C6. -/

/-- C6, counterexample to the claim as stated: the trace malloc 30, malloc 10,
malloc 10, free of the middle block, and a resize of the first block from 30
down to 10 leaves the split remainder adjacent to the free middle block; a
deallocate of null then returns immediately with the two adjacent free blocks
still present. -/
theorem C6_counterexample :
    noAdjFree (my_free cfgA none (runOps cfgA (initHeap cfgA)
      [Op.malloc 30, Op.malloc 10, Op.malloc 10, Op.free (some 46),
       Op.realloc (some 8) 10])).blocks = false := by decide

/-- C6, amended: immediately after every deallocate call with a non-null
argument returns (valid or invalid pointer), no two chain-adjacent blocks are
both free: the unconditional defragmentation sweep restores the invariant
from any state. -/
theorem C6_no_adjacent_free (cfg : Config) (st : Heap) (q : Nat) :
    noAdjFree (my_free cfg (some q) st).blocks = true := by
  show noAdjFree (deframent_my_heap cfg (myFreeBody cfg q st)).blocks = true
  exact deframent_noAdj cfg (myFreeBody cfg q st)

/-! Claim C9. -/

/-- C9, counterexample to the claim as stated: in the adjacent-free-blocks
state reached by the C6 trace, deallocating the invalid pointer 9 (its header
offset 1 is inside the occupied range but is not a chain node) reports an
invalid pointer yet still runs the defragmentation sweep, which fuses the
adjacent free pair and changes the freespace counter. -/
theorem C9_counterexample :
    (my_free cfgA (some 9) (runOps cfgA (initHeap cfgA)
        [Op.malloc 30, Op.malloc 10, Op.malloc 10, Op.free (some 46),
         Op.realloc (some 8) 10])).freespace
      ≠ (runOps cfgA (initHeap cfgA)
        [Op.malloc 30, Op.malloc 10, Op.malloc 10, Op.free (some 46),
         Op.realloc (some 8) 10]).freespace := by decide

/-- C9, amended: an invalid-pointer deallocate performs no mutation of its
own; only the unconditional defragmentation sweep runs, so whenever no two
chain-adjacent blocks are both free the call leaves the chain, every block,
and the freespace counter exactly unchanged. -/
theorem C9_invalid_free_noop (cfg : Config) (st : Heap) (q : Nat)
    (hinv : validTarget cfg st q = false)
    (hadj : noAdjFree st.blocks = true) :
    my_free cfg (some q) st = st := by
  show deframent_my_heap cfg (myFreeBody cfg q st) = st
  rw [myFreeBody_invalid cfg st q hinv]
  exact deframent_id cfg st hadj

/-- C9, witness: a two-block state with no adjacent free pair; freeing the
invalid pointer 9 leaves it exactly unchanged. -/
theorem C9_invalid_free_noop_witness :
    validTarget cfgA ⟨[⟨10, false⟩, ⟨10, true⟩], 74, false⟩ 9 = false
      ∧ noAdjFree (Heap.mk [⟨10, false⟩, ⟨10, true⟩] 74 false).blocks = true
      ∧ my_free cfgA (some 9) ⟨[⟨10, false⟩, ⟨10, true⟩], 74, false⟩
          = ⟨[⟨10, false⟩, ⟨10, true⟩], 74, false⟩ :=
  ⟨by decide, by decide,
    C9_invalid_free_noop cfgA ⟨[⟨10, false⟩, ⟨10, true⟩], 74, false⟩ 9
      (by decide) (by decide)⟩

/-! Claim C2. -/

/-- C2: the source handles growing and shrinking but has no branch and no
return statement for the equal-size case: after the first allocation of a
10-byte block, resizing that block to its current size 10 reaches the end of
the non-void my_realloc without returning (the noReturn outcome of the
model), instead of being a no-op returning the same pointer. -/
theorem C2_equal_size_no_return :
    my_realloc cfgA (some 8) 10 (my_malloc cfgA 10 (initHeap cfgA)).1
      = .error .noReturn := by decide

/-! Claim C3. -/

/-- C3: growing the chain's tail block dereferences the absent successor: in
the one-block heap obtained by the first allocation of 10 bytes, resizing
that block (the tail) up to 20 reads the free flag through the null next
pointer (line 203 of functions.c; the nullDeref outcome of the model) instead
of taking the allocate-copy-free fallback. -/
theorem C3_tail_grow_null_deref :
    my_realloc cfgA (some 8) 20 (my_malloc cfgA 10 (initHeap cfgA)).1
      = .error .nullDeref := by decide

/-! Claim C7. -/

/-- C7: splitting a free block b at a request s with s + THRESHOLD ≤ b.size
replaces b by an s-sized block keeping b's flag, immediately followed by a
new free header whose payload is b.size - s - hdrSize (the second conjunct
certifies the subtraction is exact); the new header links to b's old
successor and b to the new header (list adjacency), the new header sits at
offset hdrSize + s past b's header, and when b had no successor the new
header is the chain's tail. -/
theorem C7_split_correct (cfg : Config) (pre post : List Block) (b : Block) (s : Nat)
    (_hfree : b.free = true) (hth : s + cfg.THRESHOLD ≤ b.size) :
    splitList cfg (pre ++ b :: post) pre.length s
        = pre ++ ⟨s, b.free⟩ :: ⟨b.size - (s + cfg.hdrSize), true⟩ :: post
      ∧ b.size - (s + cfg.hdrSize) + (s + cfg.hdrSize) = b.size
      ∧ blockAddr cfg (splitList cfg (pre ++ b :: post) pre.length s) (pre.length + 1)
          = blockAddr cfg (pre ++ b :: post) pre.length + cfg.hdrSize + s
      ∧ (post = [] → (splitList cfg (pre ++ b :: post) pre.length s).getLast?
          = some ⟨b.size - (s + cfg.hdrSize), true⟩) := by
  have hwf := cfg.hwf
  have hsp := splitList_append cfg pre b post s
  refine ⟨hsp, by omega, ?_, ?_⟩
  · rw [hsp]
    unfold blockAddr
    rw [take_append_len_succ pre ⟨s, b.free⟩
      (⟨b.size - (s + cfg.hdrSize), true⟩ :: post), take_append_len,
      extent_append]
    simp [extent]
    omega
  · intro hpost
    subst hpost
    rw [hsp]
    rw [show pre ++ ⟨s, b.free⟩ :: ⟨b.size - (s + cfg.hdrSize), true⟩ :: ([] : List Block)
        = (pre ++ [⟨s, b.free⟩]) ++ [⟨b.size - (s + cfg.hdrSize), true⟩] from by simp]
    exact getLast_append_single (pre ++ [⟨s, b.free⟩]) ⟨b.size - (s + cfg.hdrSize), true⟩

/-- C7, witness: splitting a free 30-byte block at 10 with header size 8
yields the 10-byte block and a 12-byte free remainder at offset 18, which is
the new tail. -/
theorem C7_split_correct_witness :
    splitList cfgA ([] ++ ⟨30, true⟩ :: []) (List.length ([] : List Block)) 10
        = [] ++ ⟨10, (⟨30, true⟩ : Block).free⟩
            :: ⟨(⟨30, true⟩ : Block).size - (10 + cfgA.hdrSize), true⟩ :: []
      ∧ (⟨30, true⟩ : Block).size - (10 + cfgA.hdrSize) + (10 + cfgA.hdrSize)
          = (⟨30, true⟩ : Block).size
      ∧ blockAddr cfgA (splitList cfgA ([] ++ ⟨30, true⟩ :: [])
            (List.length ([] : List Block)) 10) (List.length ([] : List Block) + 1)
          = blockAddr cfgA ([] ++ ⟨30, true⟩ :: []) (List.length ([] : List Block))
              + cfgA.hdrSize + 10
      ∧ (([] : List Block) = [] → (splitList cfgA ([] ++ ⟨30, true⟩ :: [])
            (List.length ([] : List Block)) 10).getLast?
          = some ⟨(⟨30, true⟩ : Block).size - (10 + cfgA.hdrSize), true⟩) :=
  C7_split_correct cfgA [] [] ⟨30, true⟩ 10 rfl (by decide)

/-! Claim C8. -/

/-- C8: first-fit: in any state past the first call, whenever some chain
block is free with payload at least the requested size, the search returns
the earliest such block in chain order, no earlier block fits, and my_malloc
hands out exactly that block's payload offset, never a later or better
fitting one. -/
theorem C8_first_fit (cfg : Config) (st : Heap) (s j : Nat)
    (hfirst : st.first = false) (hs : 0 < s)
    (hj : j < st.blocks.length) (hjf : fits s (st.blocks.getD j nullBlock)) :
    ∃ i, i ≤ j ∧ search_freespace s st.blocks = some i
      ∧ fits s (st.blocks.getD i nullBlock)
      ∧ (∀ k, k < i → ¬ fits s (st.blocks.getD k nullBlock))
      ∧ (my_malloc cfg s st).2 = some (blockAddr cfg st.blocks i + cfg.hdrSize) := by
  obtain ⟨i, hse⟩ := search_exists s st.blocks j hj hjf
  obtain ⟨pre, b, post, hbl, hlen, hbf, hbs, hpre⟩ := search_some_decomp s st.blocks i hse
  have hget : st.blocks.getD i nullBlock = b := by
    rw [hbl, ← hlen]; exact getD_append_len pre b post
  have hkpre : ∀ k, k < i → ¬ fits s (st.blocks.getD k nullBlock) := by
    intro k hk
    have hk2 : k < pre.length := by omega
    have : st.blocks.getD k nullBlock = pre.getD k nullBlock := by
      rw [hbl]; exact getD_append_lt pre (b :: post) k hk2
    rw [this]
    exact hpre _ (getD_mem_of_lt pre k hk2)
  refine ⟨i, ?_, hse, by rw [hget]; exact ⟨hbf, hbs⟩, hkpre, ?_⟩
  · by_contra hij
    push_neg at hij
    exact hkpre j hij hjf
  · have hs0 : s ≠ 0 := by omega
    by_cases hth : s + cfg.THRESHOLD ≤ (st.blocks.getD i nullBlock).size
    · rw [my_malloc_split cfg st s i hs0 hfirst hse hth]
    · rw [my_malloc_exact cfg st s i hs0 hfirst hse hth]

/-- C8, witness: in the state with an allocated 5-byte block, then a free
20-byte block, then a free 10-byte block, a request of 10 bytes fits both
free blocks; the search picks the earlier, larger 20-byte block at index 1
(a best-fit policy would pick index 2) and my_malloc returns its payload
offset 13 + 8. -/
theorem C8_first_fit_witness :
    ∃ i, i ≤ 2 ∧ search_freespace 10
        (Heap.mk [⟨5, false⟩, ⟨20, true⟩, ⟨10, true⟩] 50 false).blocks = some i
      ∧ fits 10 ((Heap.mk [⟨5, false⟩, ⟨20, true⟩, ⟨10, true⟩] 50 false).blocks.getD i
          nullBlock)
      ∧ (∀ k, k < i → ¬ fits 10
          ((Heap.mk [⟨5, false⟩, ⟨20, true⟩, ⟨10, true⟩] 50 false).blocks.getD k
            nullBlock))
      ∧ (my_malloc cfgA 10 (Heap.mk [⟨5, false⟩, ⟨20, true⟩, ⟨10, true⟩] 50 false)).2
          = some (blockAddr cfgA
              (Heap.mk [⟨5, false⟩, ⟨20, true⟩, ⟨10, true⟩] 50 false).blocks i
              + cfgA.hdrSize) :=
  C8_first_fit cfgA ⟨[⟨5, false⟩, ⟨20, true⟩, ⟨10, true⟩], 50, false⟩ 10 2
    rfl (by decide) (by decide) (by decide)

/-! Claim C5. -/

theorem freeMark_eval (cfg : Config) (pre : List Block) (x : Block) (rest : List Block)
    (fs : Int) (hprev : ∀ pre2 p, pre = pre2 ++ [p] → p.free = false) :
    freeMark cfg (pre ++ x :: rest) pre.length fs
      = (pre ++ (fuse cfg ⟨x.size, true⟩ rest (fs + (x.size : Int))).1
            :: (fuse cfg ⟨x.size, true⟩ rest (fs + (x.size : Int))).2.1,
         (fuse cfg ⟨x.size, true⟩ rest (fs + (x.size : Int))).2.2) := by
  unfold freeMark
  dsimp only
  rw [getD_append_len pre x rest, setFree_append pre x rest true,
    fuseAt_append cfg pre ⟨x.size, true⟩ rest (fs + (x.size : Int))]
  cases hp : pre with
  | nil =>
    subst hp
    simp
  | cons a rest2 =>
    have hne : pre ≠ [] := by rw [hp]; simp
    obtain ⟨pre2, p, hpp⟩ := concat_decomp pre hne
    have hpf : p.free = false := hprev pre2 p hpp
    rw [← hp]
    have hlen0 : pre.length ≠ 0 := by rw [hp]; simp
    have hcond : ((pre.length != 0)
        && ((pre ++ (fuse cfg ⟨x.size, true⟩ rest (fs + (x.size : Int))).1
              :: (fuse cfg ⟨x.size, true⟩ rest (fs + (x.size : Int))).2.1).getD
            (pre.length - 1) nullBlock).free) = false := by
      have hgd : (pre ++ (fuse cfg ⟨x.size, true⟩ rest (fs + (x.size : Int))).1
            :: (fuse cfg ⟨x.size, true⟩ rest (fs + (x.size : Int))).2.1).getD
          (pre.length - 1) nullBlock = p := by
        rw [hpp]
        have hl2 : (pre2 ++ [p]).length - 1 = pre2.length := by simp
        rw [hl2, List.append_assoc, List.singleton_append]
        exact getD_append_len pre2 p _
      rw [hgd, hpf]
      simp
    rw [hcond]
    simp

/-- C5, counterexample to the claim as stated: from the initial arena (a
reachable state), allocate(10) succeeds and is followed by deallocate of the
returned pointer, yet free_space drops from 100 to 92: the header consumed by
the first allocation is never reclaimed, because the freed block keeps its
header in the chain. -/
theorem C5_counterexample :
    (my_free cfgA (my_malloc cfgA 10 (initHeap cfgA)).2
        (my_malloc cfgA 10 (initHeap cfgA)).1).freespace
      ≠ (initHeap cfgA).freespace := by decide

/-- C5, amended: allocate(n) immediately followed by deallocate of the
returned pointer restores the exact free-space value provided the allocation
is served by reusing an existing free block — an exact fit or a split fit —
and no two chain-adjacent blocks are free beforehand.  (First allocation and
tail extension each permanently consume one header, and an oversized
below-threshold fit overstates free space by the fit's excess, as the
counterexample and the C1 analysis show.) -/
theorem C5_roundtrip_good (cfg : Config) (st : Heap) (s i : Nat)
    (hadj : noAdjFree st.blocks = true)
    (hfirst : st.first = false)
    (hs : 0 < s)
    (hse : search_freespace s st.blocks = some i)
    (hfit : (st.blocks.getD i nullBlock).size = s
      ∨ s + cfg.THRESHOLD ≤ (st.blocks.getD i nullBlock).size) :
    (my_free cfg (my_malloc cfg s st).2 (my_malloc cfg s st).1).freespace
      = st.freespace := by
  have hs0 : s ≠ 0 := by omega
  have hwf := cfg.hwf
  have hpos := cfg.hpos
  obtain ⟨pre, b, post, hbl, hlen, hbf, hbs, _⟩ := search_some_decomp s st.blocks i hse
  have hget : st.blocks.getD i nullBlock = b := by
    rw [hbl, ← hlen]; exact getD_append_len pre b post
  have hpostNF : headFree post = false := by
    cases post with
    | nil => rfl
    | cons c post2 =>
      show c.free = false
      have hpair := noAdjFree_pair pre b c post2 (by rw [← hbl]; exact hadj)
      cases hcf : c.free
      · rfl
      · rw [hbf, hcf] at hpair; simp at hpair
  have hprev : ∀ pre2 p, pre = pre2 ++ [p] → p.free = false := by
    intro pre2 p hpp
    have hbl2 : st.blocks = pre2 ++ p :: b :: post := by
      rw [hbl, hpp, List.append_assoc, List.singleton_append]
    have hpair := noAdjFree_pair pre2 p b post (by rw [← hbl2]; exact hadj)
    cases hpf : p.free
    · rfl
    · rw [hbf, hpf] at hpair; simp at hpair
  have haddr : blockAddr cfg st.blocks i + cfg.hdrSize = extent cfg pre + cfg.hdrSize := by
    unfold blockAddr
    rw [hbl, ← hlen, take_append_len]
  have hbeta : (⟨b.size, true⟩ : Block) = b := by
    cases b with
    | mk bs bfr =>
      have hb2 : bfr = true := hbf
      subst hb2
      rfl
  -- common evaluation of my_free on a state pre ++ x :: rest with the right
  -- freespace, provided fuse restores the original segment
  have hcore : ∀ (x : Block) (rest : List Block) (fs1 : Int),
      fuse cfg ⟨x.size, true⟩ rest (fs1 + (x.size : Int)) = (b, post, st.freespace) →
      (my_free cfg (some (extent cfg pre + cfg.hdrSize))
        ⟨pre ++ x :: rest, fs1, st.first⟩).freespace = st.freespace := by
    intro x rest fs1 hfuse
    obtain ⟨la, hla, hle⟩ := lastAddr_ge cfg (pre ++ x :: rest) pre.length
      (by simp)
    rw [take_append_len] at hle
    have hci : chainIndexOf cfg (pre ++ x :: rest) 0
        ((extent cfg pre + cfg.hdrSize) - cfg.hdrSize) = some pre.length := by
      have harith : (extent cfg pre + cfg.hdrSize) - cfg.hdrSize = extent cfg pre := by
        omega
      rw [harith]
      have := chainIndexOf_addr cfg pre x rest 0
      simpa using this
    have hrange : (decide (cfg.hdrSize ≤ extent cfg pre + cfg.hdrSize)
        && decide ((extent cfg pre + cfg.hdrSize) - cfg.hdrSize ≤ la)) = true := by
      simp only [Bool.and_eq_true, decide_eq_true_eq]
      omega
    have hbody : myFreeBody cfg (extent cfg pre + cfg.hdrSize)
        ⟨pre ++ x :: rest, fs1, st.first⟩ = st := by
      have hun : myFreeBody cfg (extent cfg pre + cfg.hdrSize)
          ⟨pre ++ x :: rest, fs1, st.first⟩
          = (if (decide (cfg.hdrSize ≤ extent cfg pre + cfg.hdrSize)
                && decide ((extent cfg pre + cfg.hdrSize) - cfg.hdrSize ≤ la)) = true then
              match chainIndexOf cfg (pre ++ x :: rest) 0
                  ((extent cfg pre + cfg.hdrSize) - cfg.hdrSize) with
              | none => (⟨pre ++ x :: rest, fs1, st.first⟩ : Heap)
              | some j =>
                (⟨(freeMark cfg (pre ++ x :: rest) j fs1).1,
                  (freeMark cfg (pre ++ x :: rest) j fs1).2, st.first⟩ : Heap)
            else ⟨pre ++ x :: rest, fs1, st.first⟩) := by
        unfold myFreeBody
        rw [hla]
      rw [hun, if_pos hrange, hci]
      have hfm := freeMark_eval cfg pre x rest fs1 hprev
      dsimp only
      rw [hfm]
      dsimp only
      rw [hfuse]
      dsimp only
      rw [← hbl]
    show (deframent_my_heap cfg (myFreeBody cfg (extent cfg pre + cfg.hdrSize)
        ⟨pre ++ x :: rest, fs1, st.first⟩)).freespace = st.freespace
    rw [hbody, deframent_id cfg st hadj]
  rcases hfit with hexact | hsplit
  · -- exact fit: the below-threshold branch is taken
    rw [hget] at hexact
    have hth : ¬ (s + cfg.THRESHOLD ≤ (st.blocks.getD i nullBlock).size) := by
      rw [hget, hexact]
      omega
    rw [my_malloc_exact cfg st s i hs0 hfirst hse hth]
    dsimp only
    rw [haddr]
    have hsf : setFree st.blocks i false = pre ++ ⟨b.size, false⟩ :: post := by
      rw [hbl, ← hlen]; exact setFree_append pre b post false
    rw [hsf]
    apply hcore ⟨b.size, false⟩ post (st.freespace - (s : Int))
    show fuse cfg ⟨b.size, true⟩ post (st.freespace - (s : Int) + (b.size : Int))
        = (b, post, st.freespace)
    rw [hbeta, fuse_stop cfg b post _ hpostNF]
    have : st.freespace - (s : Int) + (b.size : Int) = st.freespace := by
      rw [hexact]; ring
    rw [this]
  · -- split fit
    rw [hget] at hsplit
    have hsH : s + cfg.hdrSize ≤ b.size := by omega
    rw [my_malloc_split cfg st s i hs0 hfirst hse (by rw [hget]; exact hsplit)]
    dsimp only
    rw [haddr, hget]
    have hsf : setFree (splitList cfg st.blocks i s) i false
        = pre ++ ⟨s, false⟩ :: ⟨b.size - (s + cfg.hdrSize), true⟩ :: post := by
      rw [hbl, ← hlen, splitList_append]
      rw [hbf]
      exact setFree_append pre ⟨s, true⟩ (⟨b.size - (s + cfg.hdrSize), true⟩ :: post) false
    rw [hsf]
    apply hcore ⟨s, false⟩ (⟨b.size - (s + cfg.hdrSize), true⟩ :: post)
      (st.freespace - (b.size : Int) + ((b.size - (s + cfg.hdrSize) : Nat) : Int))
    show fuse cfg ⟨s, true⟩ (⟨b.size - (s + cfg.hdrSize), true⟩ :: post)
        (st.freespace - (b.size : Int) + ((b.size - (s + cfg.hdrSize) : Nat) : Int)
          + (s : Int))
        = (b, post, st.freespace)
    rw [fuse_step cfg ⟨s, true⟩ ⟨b.size - (s + cfg.hdrSize), true⟩ post _ rfl]
    have hblk : (⟨(⟨s, true⟩ : Block).size + (⟨b.size - (s + cfg.hdrSize), true⟩ : Block).size
        + cfg.hdrSize, (⟨s, true⟩ : Block).free⟩ : Block) = b := by
      cases b with
      | mk bs bfr =>
        have hb2 : bfr = true := hbf
        subst hb2
        have hsH2 : s + cfg.hdrSize ≤ bs := hsH
        show (⟨s + (bs - (s + cfg.hdrSize)) + cfg.hdrSize, true⟩ : Block) = ⟨bs, true⟩
        have hsz : s + (bs - (s + cfg.hdrSize)) + cfg.hdrSize = bs := by omega
        rw [hsz]
    rw [hblk, fuse_stop cfg b post _ hpostNF]
    simp only [Prod.mk.injEq]
    refine ⟨trivial, trivial, ?_⟩
    omega

/-- C5, witness: in the two-block state with a free 10-byte block followed by
an allocated one (freespace 74), allocate(10) is an exact fit; the round trip
restores freespace 74.  The theorem is applied at this concrete state. -/
theorem C5_roundtrip_good_witness :
    noAdjFree (Heap.mk [⟨10, true⟩, ⟨10, false⟩] 74 false).blocks = true
      ∧ (Heap.mk [⟨10, true⟩, ⟨10, false⟩] 74 false).first = false
      ∧ 0 < 10
      ∧ search_freespace 10 (Heap.mk [⟨10, true⟩, ⟨10, false⟩] 74 false).blocks = some 0
      ∧ (my_free cfgA
          (my_malloc cfgA 10 ⟨[⟨10, true⟩, ⟨10, false⟩], 74, false⟩).2
          (my_malloc cfgA 10 ⟨[⟨10, true⟩, ⟨10, false⟩], 74, false⟩).1).freespace
        = (Heap.mk [⟨10, true⟩, ⟨10, false⟩] 74 false).freespace :=
  ⟨by decide, rfl, by decide, by decide,
    C5_roundtrip_good cfgA ⟨[⟨10, true⟩, ⟨10, false⟩], 74, false⟩ 10 0
      (by decide) rfl (by decide) (by decide) (Or.inl (by decide))⟩

end RTOS
